import Mathlib

/-!
Verification of the Dark Frame timeline/segment core.

Shallow embedding of the clip-list operations (`VideoEditor.tsx`), the
segment mapper (`videoProcessor.ts`: `createPreviewSegments`,
`getOriginalTime`, `getPreviewDuration`, `trimVideo`) and the player
handlers (`VideoPlayer.tsx`).  JavaScript numbers are modelled as `ℚ`
(exact arithmetic); JS `Array.prototype.sort` with comparator
`(a, b) => a.startTime - b.startTime` is modelled by the stable
`List.insertionSort` on the relation `a.startTime ≤ b.startTime`.
-/

namespace DarkFrame

/-- `VideoClip` record from `VideoEditor.tsx` (interface VideoClip). -/
structure VideoClip where
  id : String
  name : String
  url : String
  duration : ℚ
  startTime : ℚ
  endTime : ℚ
  position : ℚ
deriving DecidableEq

/-- One entry of the array returned by `createPreviewSegments`:
`{ startTime, endTime, originalStart, originalEnd }` where
`startTime`/`endTime` live on the preview axis and
`originalStart`/`originalEnd` on the source axis. -/
structure Segment where
  startTime : ℚ
  endTime : ℚ
  originalStart : ℚ
  originalEnd : ℚ
deriving DecidableEq

/-- The comparator `(a, b) => a.startTime - b.startTime` as an order relation. -/
def clipLE (a b : VideoClip) : Prop := a.startTime ≤ b.startTime

instance : DecidableRel clipLE := fun a b => inferInstanceAs (Decidable (a.startTime ≤ b.startTime))

instance : IsTotal VideoClip clipLE := ⟨fun a b => le_total a.startTime b.startTime⟩

instance : IsTrans VideoClip clipLE := ⟨fun _ _ _ h1 h2 => le_trans h1 h2⟩

/-- `[...clips].sort((a, b) => a.startTime - b.startTime)` — a stable sort on a
copy of the list, ascending by `startTime`. -/
def sortClips (clips : List VideoClip) : List VideoClip :=
  List.insertionSort clipLE clips

/-- The loop body of `createPreviewSegments`: walk the sorted clips with a
running cursor `currentTime`, emitting one segment per clip. -/
def segmentsGo : ℚ → List VideoClip → List Segment
  | _, [] => []
  | currentTime, c :: rest =>
    { startTime := currentTime
      endTime := currentTime + (c.endTime - c.startTime)
      originalStart := c.startTime
      originalEnd := c.endTime } :: segmentsGo (currentTime + (c.endTime - c.startTime)) rest

/-- `videoProcessor.createPreviewSegments`. -/
def createPreviewSegments (clips : List VideoClip) : List Segment :=
  segmentsGo 0 (sortClips clips)

/-- `videoProcessor.getPreviewDuration`:
`clips.reduce((total, clip) => total + (clip.endTime - clip.startTime), 0)`. -/
def getPreviewDuration (clips : List VideoClip) : ℚ :=
  clips.foldl (fun total c => total + (c.endTime - c.startTime)) 0

/-- The `for` loop of `getOriginalTime`: first segment whose closed preview
interval contains `previewTime` wins; fall through to `0`. -/
def findOrigAux (previewTime : ℚ) : List Segment → ℚ
  | [] => 0
  | s :: rest =>
    if s.startTime ≤ previewTime ∧ previewTime ≤ s.endTime then
      s.originalStart + (previewTime - s.startTime)
    else
      findOrigAux previewTime rest

/-- `videoProcessor.getOriginalTime`. -/
def getOriginalTime (previewTime : ℚ) (clips : List VideoClip) : ℚ :=
  findOrigAux previewTime (createPreviewSegments clips)

/-- Boolean test `seg.originalStart <= t && seg.originalEnd >= t`
(segment lookup in `VideoPlayer.handleTimeUpdate`). -/
def srcContains (t : ℚ) (s : Segment) : Bool :=
  decide (s.originalStart ≤ t) && decide (t ≤ s.originalEnd)

/-- Boolean test `previewTime >= segment.startTime && previewTime <= segment.endTime`
(the loop guard of `getOriginalTime`). -/
def prevContains (t : ℚ) (s : Segment) : Bool :=
  decide (s.startTime ≤ t) && decide (t ≤ s.endTime)

/-- `segments.find(seg => seg.originalStart <= t && seg.originalEnd >= t)`:
first segment whose closed source interval contains `t`. -/
def findSegAux (t : ℚ) : List Segment → Option Segment
  | [] => none
  | s :: rest =>
    if s.originalStart ≤ t ∧ t ≤ s.originalEnd then some s else findSegAux t rest

/-- Source-to-preview mapping as computed in `VideoPlayer.handleTimeUpdate`:
find the first segment whose source interval contains the current video time
and return `segment.startTime + (currentVideoTime - segment.originalStart)`;
`none` when no segment matches (the "deleted gap" case). -/
def sourceToPreview? (sourceTime : ℚ) (clips : List VideoClip) : Option ℚ :=
  (findSegAux sourceTime (createPreviewSegments clips)).map
    (fun s => s.startTime + (sourceTime - s.originalStart))

/-- The slice of `VideoEditor` component state touched by the clip-list
operations: `clips`, `selectedClipId`, `previewMode`, `currentTime`. -/
structure EditorState where
  clips : List VideoClip
  selectedClipId : Option String
  previewMode : Bool
  currentTime : ℚ
deriving DecidableEq

/-- The initial clip created by `handleFileUpload`: spans `[0, 0]` with
`duration: 0 // Will be set when video loads`. -/
def uploadClip (id name url : String) : VideoClip :=
  { id := id, name := name, url := url, duration := 0
    startTime := 0, endTime := 0, position := 0 }

/-- `handleVideoLoaded`: once metadata arrives, every clip's `duration` and
`endTime` are set to the reported video duration. -/
def handleVideoLoaded (videoDuration : ℚ) (clips : List VideoClip) : List VideoClip :=
  clips.map fun c => { c with duration := videoDuration, endTime := videoDuration }

/-- The clip-list effect of `handleCut` for a resolved clip id `sid`:
`findIndex` locates the first clip with that id; if the playhead `cutTime`
is outside `(startTime, endTime)` the list is returned untouched; otherwise
the clip is replaced in place by its `[startTime, cutTime]` half and the
`[cutTime, endTime]` half (fresh id `newId`, `position` shifted by the first
half's duration) is spliced in immediately after it. -/
def cutList (sid : String) (cutTime : ℚ) (newId : String) : List VideoClip → List VideoClip
  | [] => []
  | c :: rest =>
    if c.id = sid then
      if cutTime ≤ c.startTime ∨ c.endTime ≤ cutTime then c :: rest
      else
        { c with endTime := cutTime, duration := cutTime - c.startTime } ::
        { c with id := newId, startTime := cutTime
                 position := c.position + (cutTime - c.startTime)
                 duration := c.endTime - cutTime } :: rest
    else c :: cutList sid cutTime newId rest

/-- `handleCut`: early-returns when no clip is selected, otherwise applies
`cutList` at the selected id.  `newId` stands for `Date.now().toString()`. -/
def handleCut (clips : List VideoClip) (selectedClipId : Option String)
    (cutTime : ℚ) (newId : String) : List VideoClip :=
  match selectedClipId with
  | none => clips
  | some sid => cutList sid cutTime newId clips

/-- `handleDeleteClip`: filter the clip out, clear the selection if it was
selected, reset the playhead, and force `previewMode` according to whether
any clips remain. -/
def handleDeleteClip (s : EditorState) (clipId : String) : EditorState :=
  let newClips := s.clips.filter fun c => decide (c.id ≠ clipId)
  { clips := newClips
    selectedClipId := if s.selectedClipId = some clipId then none else s.selectedClipId
    previewMode := if newClips.isEmpty then false else true
    currentTime := 0 }

/-- Per-clip body of `handleClipDrag`'s `clips.map`: the clip with the
matching id gets `startTime := max(0, min(newStartTime, duration - clipDuration))`
and `endTime := max(clipDuration, min(newStartTime + clipDuration, duration))`
(`duration` being the full asset duration state); other clips pass through. -/
def dragOne (duration : ℚ) (clipId : String) (newStartTime : ℚ) (c : VideoClip) : VideoClip :=
  if c.id = clipId then
    { c with startTime := max 0 (min newStartTime (duration - (c.endTime - c.startTime)))
             endTime := max (c.endTime - c.startTime)
                          (min (newStartTime + (c.endTime - c.startTime)) duration) }
  else c

/-- `handleClipDrag`. -/
def handleClipDrag (clips : List VideoClip) (duration : ℚ) (clipId : String)
    (newStartTime : ℚ) : List VideoClip :=
  clips.map (dragOne duration clipId newStartTime)

/-- The clip-list effect of `handleVideoProcessed` (AI splice): the first
clip with the selected id is replaced, at its list position, by up to three
clips — the `[originalStart, pStart]` remainder (only when
`pStart > originalStart`), the processed clip spanning `[pStart, pEnd]` with
its own url, and the `[pEnd, originalEnd]` remainder (only when
`pEnd < originalEnd`). -/
def spliceClips (clips : List VideoClip) (selectedId : String) (pStart pEnd : ℚ)
    (processedUrl beforeId processedId afterId processedName : String) : List VideoClip :=
  match clips.findIdx? (fun c => c.id == selectedId) with
  | none => clips
  | some i =>
    match clips.get? i with
    | none => clips
    | some orig =>
      let newClips :=
        (if pStart > orig.startTime then
          [{ orig with id := beforeId, endTime := pStart, duration := pStart - orig.startTime }]
         else []) ++
        [{ id := processedId, name := processedName, url := processedUrl
           duration := pEnd - pStart, startTime := pStart, endTime := pEnd, position := pStart }] ++
        (if pEnd < orig.endTime then
          [{ orig with id := afterId, startTime := pEnd
                       duration := orig.endTime - pEnd, position := pEnd }]
         else [])
      clips.take i ++ newClips ++ clips.drop (i + 1)

/-- The clip-list effect of `VideoPlayer.handleVideoEnded`: in preview mode
with a nonempty clip list, `clips.sort((a, b) => a.startTime - b.startTime)`
mutates the shared clips array in place, so the stored list becomes the
sorted one; otherwise the list is untouched. -/
def handleVideoEnded (previewMode : Bool) (clips : List VideoClip) : List VideoClip :=
  if previewMode ∧ clips.length > 0 then sortClips clips else clips

/-- Abstracted FFmpeg command issued by `trimVideo`.  `extract i start dur`
stands for `exec(['-i','input.mp4','-ss',start,'-t',dur,'-c','copy','segment_i.mp4'])`;
`writeInput` for writing `input.mp4` from the uploaded file; `writeConcat n`
for writing `concat.txt` listing `segment_0 … segment_(n-1)`; `concatAll`
for the final concat exec producing `output.mp4`.  No clip `url` appears
anywhere: every extraction reads `input.mp4`. -/
inductive FFCmd where
  | writeInput : FFCmd
  | extract (idx : ℕ) (start dur : ℚ) : FFCmd
  | writeConcat (count : ℕ) : FFCmd
  | concatAll : FFCmd
deriving DecidableEq

/-- The extraction loop of `trimVideo` over the sorted clips, with running
segment index. -/
def extractCmds : ℕ → List VideoClip → List FFCmd
  | _, [] => []
  | i, c :: rest =>
    FFCmd.extract i c.startTime (c.endTime - c.startTime) :: extractCmds (i + 1) rest

/-- The command script `trimVideo` issues for a given clip list:
write the input file, extract each sorted clip, write the concat list,
concatenate. -/
def trimVideoScript (clips : List VideoClip) : List FFCmd :=
  FFCmd.writeInput ::
    (extractCmds 0 (sortClips clips) ++
      [FFCmd.writeConcat (sortClips clips).length, FFCmd.concatAll])

/-- `trimVideo` including its guard: an empty clip list throws
(`'No clips to export…'`); otherwise the script runs. -/
def trimVideo (clips : List VideoClip) : Except String (List FFCmd) :=
  if clips.isEmpty then
    Except.error "No clips to export. Please add at least one clip before exporting."
  else
    Except.ok (trimVideoScript clips)

/-- The source intervals extracted by a script, in order: an
`extract i start dur` command extracts `[start, start + dur]`. -/
def extractPairs (script : List FFCmd) : List (ℚ × ℚ) :=
  script.filterMap fun cmd =>
    match cmd with
    | FFCmd.extract _ start dur => some (start, start + dur)
    | _ => none

/-- The `(startTime, endTime)` source span of a clip — the only data about a
clip that reaches the FFmpeg command line. -/
def clipSpan (c : VideoClip) : ℚ × ℚ := (c.startTime, c.endTime)

/-! ### Concrete fixtures used by witnesses and counterexamples -/

/-- A clip covering source `[0, 4]`. -/
def clipA : VideoClip :=
  { id := "a", name := "a", url := "u", duration := 4, startTime := 0, endTime := 4, position := 0 }

/-- A clip covering source `[6, 10]` — a deleted gap `[4, 6]` lies before it. -/
def clipB : VideoClip :=
  { id := "b", name := "b", url := "u", duration := 4, startTime := 6, endTime := 10, position := 0 }

/-- A clip covering source `[1, 3]` at `position` 0, used to exhibit drag
behaviour. -/
def clipD : VideoClip :=
  { id := "a", name := "n", url := "u", duration := 2, startTime := 1, endTime := 3, position := 0 }

/-- An editor state with two clips and the first one selected. -/
def stateAB : EditorState :=
  { clips := [clipA, clipB], selectedClipId := some "a", previewMode := false, currentTime := 2 }

/-- A clip spanning `[0, 5]`. -/
def clipX : VideoClip :=
  { id := "a", name := "n", url := "u", duration := 5, startTime := 0, endTime := 5, position := 0 }

/-- A clip spanning `[0, 3]` — same `startTime` as `clipX`, shorter. -/
def clipY : VideoClip :=
  { id := "b", name := "n", url := "u", duration := 3, startTime := 0, endTime := 3, position := 0 }

/-- `clipX` with different id, name, url and position but the same span. -/
def clipXalt : VideoClip :=
  { id := "z", name := "other", url := "elsewhere", duration := 5, startTime := 0, endTime := 5,
    position := 9 }

/-! ### Helper lemmas about the segment walk -/

lemma sortClips_perm (clips : List VideoClip) : (sortClips clips).Perm clips :=
  List.perm_insertionSort clipLE clips

lemma sortClips_sorted (clips : List VideoClip) : List.Sorted clipLE (sortClips clips) :=
  List.sorted_insertionSort clipLE clips

lemma segmentsGo_chain (l : List VideoClip) :
    ∀ cur : ℚ, List.Chain' (fun a b : Segment => a.endTime = b.startTime) (segmentsGo cur l) := by
  induction l with
  | nil => intro cur; simp [segmentsGo]
  | cons c rest ih =>
    intro cur
    have h := ih (cur + (c.endTime - c.startTime))
    cases rest with
    | nil => simp [segmentsGo]
    | cons c' rest' =>
      simp only [segmentsGo] at h ⊢
      exact List.chain'_cons.mpr ⟨rfl, h⟩

lemma segmentsGo_dur (l : List VideoClip) :
    ∀ (cur : ℚ) (s : Segment), s ∈ segmentsGo cur l →
      s.endTime - s.startTime = s.originalEnd - s.originalStart := by
  induction l with
  | nil => intro cur s hs; simp [segmentsGo] at hs
  | cons c rest ih =>
    intro cur s hs
    simp only [segmentsGo, List.mem_cons] at hs
    rcases hs with rfl | hs
    · simp
    · exact ih _ s hs

lemma segmentsGo_mem_orig (l : List VideoClip) :
    ∀ (cur : ℚ) (s : Segment), s ∈ segmentsGo cur l →
      ∃ c ∈ l, s.originalStart = c.startTime ∧ s.originalEnd = c.endTime := by
  induction l with
  | nil => intro cur s hs; simp [segmentsGo] at hs
  | cons c rest ih =>
    intro cur s hs
    simp only [segmentsGo, List.mem_cons] at hs
    rcases hs with rfl | hs
    · exact ⟨c, List.mem_cons_self c rest, rfl, rfl⟩
    · obtain ⟨c', hc', h1, h2⟩ := ih _ s hs
      exact ⟨c', List.mem_cons_of_mem c hc', h1, h2⟩

lemma segmentsGo_orig_mem (l : List VideoClip) :
    ∀ (cur : ℚ) (c : VideoClip), c ∈ l →
      ∃ s ∈ segmentsGo cur l, s.originalStart = c.startTime ∧ s.originalEnd = c.endTime := by
  induction l with
  | nil => intro cur c hc; simp at hc
  | cons c0 rest ih =>
    intro cur c hc
    rcases List.mem_cons.mp hc with rfl | hc'
    · exact ⟨{ startTime := cur, endTime := cur + (c.endTime - c.startTime)
               originalStart := c.startTime, originalEnd := c.endTime },
        by simp [segmentsGo], rfl, rfl⟩
    · obtain ⟨s, hs, h1, h2⟩ := ih (cur + (c0.endTime - c0.startTime)) c hc'
      exact ⟨s, by simp [segmentsGo, List.mem_cons]; right; exact hs, h1, h2⟩

lemma segmentsGo_map_orig (l : List VideoClip) :
    ∀ cur : ℚ, (segmentsGo cur l).map (fun s => s.originalStart) = l.map (fun c => c.startTime) := by
  induction l with
  | nil => intro cur; simp [segmentsGo]
  | cons c rest ih => intro cur; simp [segmentsGo, ih]

lemma segmentsGo_sum (l : List VideoClip) :
    ∀ cur : ℚ, ((segmentsGo cur l).map (fun s => s.endTime - s.startTime)).sum =
      (l.map (fun c => c.endTime - c.startTime)).sum := by
  induction l with
  | nil => intro cur; simp [segmentsGo]
  | cons c rest ih =>
    intro cur
    simp only [segmentsGo, List.map_cons, List.sum_cons, ih]
    ring_nf

lemma foldl_dur (l : List VideoClip) :
    ∀ a : ℚ, l.foldl (fun total c => total + (c.endTime - c.startTime)) a =
      a + (l.map (fun c => c.endTime - c.startTime)).sum := by
  induction l with
  | nil => intro a; simp
  | cons c rest ih =>
    intro a
    simp only [List.foldl_cons, List.map_cons, List.sum_cons, ih]
    ring

lemma segs_sorted_orig (clips : List VideoClip) :
    List.Sorted (fun a b : Segment => a.originalStart ≤ b.originalStart)
      (createPreviewSegments clips) := by
  have hs : List.Sorted clipLE (sortClips clips) := sortClips_sorted clips
  have hs' : List.Pairwise (fun a b : VideoClip => a.startTime ≤ b.startTime) (sortClips clips) := hs
  have h1 : List.Pairwise (fun a b : ℚ => a ≤ b)
      ((sortClips clips).map (fun c => c.startTime)) := List.pairwise_map.mpr hs'
  rw [← segmentsGo_map_orig (sortClips clips) 0] at h1
  exact List.pairwise_map.mp h1

lemma segmentsGo_head_start (cur : ℚ) (l : List VideoClip) (s : Segment)
    (h : (segmentsGo cur l).head? = some s) : s.startTime = cur := by
  cases l with
  | nil => simp [segmentsGo] at h
  | cons c rest =>
    simp only [segmentsGo, List.head?_cons, Option.some_inj] at h
    rw [← h]

lemma findSegAux_mem (t : ℚ) (l : List Segment) (s : Segment)
    (h : findSegAux t l = some s) : s ∈ l := by
  induction l with
  | nil => simp [findSegAux] at h
  | cons s0 rest ih =>
    by_cases hm : s0.originalStart ≤ t ∧ t ≤ s0.originalEnd
    · simp only [findSegAux, if_pos hm, Option.some_inj] at h
      rw [← h]; exact List.mem_cons_self s0 rest
    · simp only [findSegAux, if_neg hm] at h
      exact List.mem_cons_of_mem s0 (ih h)

lemma chain_mono (s : Segment) (l : List Segment)
    (hc : List.Chain' (fun a b : Segment => a.endTime = b.startTime) (s :: l))
    (hd : ∀ x ∈ s :: l, x.startTime ≤ x.endTime) :
    ∀ x ∈ l, s.endTime ≤ x.startTime := by
  induction l generalizing s with
  | nil => intro x hx; simp at hx
  | cons y l' ih =>
    intro x hx
    have hsy : s.endTime = y.startTime := (List.chain'_cons.mp hc).1
    rcases List.mem_cons.mp hx with rfl | hx'
    · exact le_of_eq hsy
    · have hy := ih y (List.chain'_cons.mp hc).2
        (fun z hz => hd z (List.mem_cons_of_mem s hz)) x hx'
      calc s.endTime = y.startTime := hsy
        _ ≤ y.endTime := hd y (by simp)
        _ ≤ x.startTime := hy

/-- Core round-trip lemma over any segment list with the mapper invariants:
under the invariants produced by `createPreviewSegments` (gapless chain,
duration preservation, nonnegative source intervals, source-sorted), any
time strictly inside some segment's source interval maps to a preview time
that `findOrigAux` maps back exactly. -/
lemma roundAux (t : ℚ) :
    ∀ segs : List Segment,
      List.Chain' (fun a b : Segment => a.endTime = b.startTime) segs →
      (∀ s ∈ segs, s.endTime - s.startTime = s.originalEnd - s.originalStart) →
      (∀ s ∈ segs, s.originalStart ≤ s.originalEnd) →
      List.Sorted (fun a b : Segment => a.originalStart ≤ b.originalStart) segs →
      (∃ w ∈ segs, w.originalStart < t ∧ t < w.originalEnd) →
      ∃ s₁, findSegAux t segs = some s₁ ∧ s₁.originalStart < t ∧
        findOrigAux (s₁.startTime + (t - s₁.originalStart)) segs = t := by
  intro segs
  induction segs with
  | nil => intro _ _ _ _ hex; obtain ⟨w, hw, _⟩ := hex; simp at hw
  | cons s rest ih =>
    intro hc hdur hnn hsort hex
    by_cases hm : s.originalStart ≤ t ∧ t ≤ s.originalEnd
    · refine ⟨s, by simp [findSegAux, hm], ?_, ?_⟩
      · obtain ⟨w, hw, hw1, hw2⟩ := hex
        rcases List.mem_cons.mp hw with rfl | hw'
        · exact hw1
        · exact lt_of_le_of_lt ((List.sorted_cons.mp hsort).1 w hw') hw1
      · have hdurS := hdur s (List.mem_cons_self s rest)
        have h1 : s.startTime ≤ s.startTime + (t - s.originalStart) := by
          have := hm.1; linarith
        have h2 : s.startTime + (t - s.originalStart) ≤ s.endTime := by
          have := hm.2; linarith
        simp only [findOrigAux, if_pos (And.intro h1 h2)]
        ring
    · obtain ⟨w, hw, hw1, hw2⟩ := hex
      have hwrest : w ∈ rest := by
        rcases List.mem_cons.mp hw with rfl | h
        · exact absurd ⟨le_of_lt hw1, le_of_lt hw2⟩ hm
        · exact h
      obtain ⟨s₁, hfind, hstrict, hround⟩ :=
        ih hc.tail (fun x hx => hdur x (List.mem_cons_of_mem s hx))
          (fun x hx => hnn x (List.mem_cons_of_mem s hx))
          (List.sorted_cons.mp hsort).2 ⟨w, hwrest, hw1, hw2⟩
      refine ⟨s₁, by simp [findSegAux, if_neg hm, hfind], hstrict, ?_⟩
      have hs1mem : s₁ ∈ rest := findSegAux_mem t rest s₁ hfind
      have hmono : s.endTime ≤ s₁.startTime :=
        chain_mono s rest hc
          (fun x hx => by have hd := hdur x hx; have hn := hnn x hx; linarith) s₁ hs1mem
      have hp : s.endTime < s₁.startTime + (t - s₁.originalStart) := by linarith
      have hguard : ¬(s.startTime ≤ s₁.startTime + (t - s₁.originalStart) ∧
          s₁.startTime + (t - s₁.originalStart) ≤ s.endTime) := fun h =>
        absurd h.2 (not_le.mpr hp)
      simp only [findOrigAux, if_neg hguard]
      exact hround

/-- `dragOne` preserves a nonnegative clip length: the clamped interval
`[max 0 (min new (D - d)), max d (min (new + d) D)]` always has length `d`. -/
lemma dragOne_dur (duration : ℚ) (clipId : String) (newStartTime : ℚ) (c : VideoClip)
    (hd : 0 ≤ c.endTime - c.startTime) :
    (dragOne duration clipId newStartTime c).endTime -
      (dragOne duration clipId newStartTime c).startTime = c.endTime - c.startTime := by
  by_cases h : c.id = clipId
  · rw [dragOne, if_pos h]
    simp only []
    have key : min (newStartTime + (c.endTime - c.startTime)) duration =
        min newStartTime (duration - (c.endTime - c.startTime)) + (c.endTime - c.startTime) := by
      rcases le_total newStartTime (duration - (c.endTime - c.startTime)) with h1 | h1
      · rw [min_eq_left (by linarith), min_eq_left h1]
      · rw [min_eq_right (by linarith), min_eq_right h1]
        ring
    have key2 : max (c.endTime - c.startTime)
        (min newStartTime (duration - (c.endTime - c.startTime)) + (c.endTime - c.startTime)) =
        max 0 (min newStartTime (duration - (c.endTime - c.startTime))) +
          (c.endTime - c.startTime) := by
      rcases le_total (0 : ℚ) (min newStartTime (duration - (c.endTime - c.startTime)))
        with h1 | h1
      · rw [max_eq_right (by linarith), max_eq_right h1]
      · rw [max_eq_left (by linarith), max_eq_left h1]
        ring
    rw [key, key2]
    ring
  · rw [dragOne, if_neg h]

/-- `cutList` preserves strict positivity of every clip's length. -/
lemma cutList_pos (sid newId : String) (t : ℚ) :
    ∀ l : List VideoClip, (∀ c ∈ l, c.startTime < c.endTime) →
      ∀ c ∈ cutList sid t newId l, c.startTime < c.endTime := by
  intro l
  induction l with
  | nil => intro _ c hc; simp [cutList] at hc
  | cons c0 rest ih =>
    intro h c hc
    by_cases hid : c0.id = sid
    · by_cases hguard : t ≤ c0.startTime ∨ c0.endTime ≤ t
      · rw [cutList, if_pos hid, if_pos hguard] at hc
        exact h c hc
      · rw [cutList, if_pos hid, if_neg hguard] at hc
        push_neg at hguard
        rcases List.mem_cons.mp hc with rfl | hc'
        · exact hguard.1
        · rcases List.mem_cons.mp hc' with rfl | hc''
          · exact hguard.2
          · exact h c (List.mem_cons_of_mem c0 hc'')
    · rw [cutList, if_neg hid] at hc
      rcases List.mem_cons.mp hc with rfl | hc'
      · exact h c (List.mem_cons_self c rest)
      · exact ih (fun x hx => h x (List.mem_cons_of_mem c0 hx)) c hc'

lemma segmentsGo_map_pairs (l : List VideoClip) :
    ∀ cur : ℚ, (segmentsGo cur l).map (fun s => (s.originalStart, s.originalEnd)) =
      l.map clipSpan := by
  induction l with
  | nil => intro cur; simp [segmentsGo]
  | cons c rest ih => intro cur; simp [segmentsGo, clipSpan, ih]

lemma extractPairs_extractCmds (l : List VideoClip) :
    ∀ i : ℕ, extractPairs (extractCmds i l) = l.map clipSpan := by
  induction l with
  | nil => intro i; rfl
  | cons c rest ih =>
    intro i
    have hspan : c.startTime + (c.endTime - c.startTime) = c.endTime := by ring
    simp [extractCmds, extractPairs, List.filterMap_cons, hspan, clipSpan]
    exact ih (i + 1)

lemma orderedInsert_map_span (a b : VideoClip) (hab : clipSpan a = clipSpan b) :
    ∀ l1 l2 : List VideoClip, l1.map clipSpan = l2.map clipSpan →
      (l1.orderedInsert clipLE a).map clipSpan = (l2.orderedInsert clipLE b).map clipSpan := by
  have hst : a.startTime = b.startTime := congrArg Prod.fst hab
  intro l1
  induction l1 with
  | nil =>
    intro l2 h
    have h2 : l2 = [] := List.map_eq_nil.mp h.symm
    subst h2
    simp [hab]
  | cons x1 r1 ih =>
    intro l2 h
    cases l2 with
    | nil => simp at h
    | cons x2 r2 =>
      simp only [List.map_cons, List.cons.injEq] at h
      have hx : x1.startTime = x2.startTime := congrArg Prod.fst h.1
      by_cases hle : clipLE a x1
      · have hle2 : clipLE b x2 := by
          rw [clipLE] at hle ⊢
          rw [← hx, ← hst]
          exact hle
        simp only [List.orderedInsert, if_pos hle, if_pos hle2, List.map_cons]
        rw [hab, h.1, h.2]
      · have hle2 : ¬clipLE b x2 := by
          rw [clipLE] at hle ⊢
          rw [← hx, ← hst]
          exact hle
        simp only [List.orderedInsert, if_neg hle, if_neg hle2, List.map_cons]
        rw [h.1, ih r2 h.2]

lemma insertionSort_map_span :
    ∀ l1 l2 : List VideoClip, l1.map clipSpan = l2.map clipSpan →
      (List.insertionSort clipLE l1).map clipSpan =
        (List.insertionSort clipLE l2).map clipSpan := by
  intro l1
  induction l1 with
  | nil =>
    intro l2 h
    have h2 : l2 = [] := List.map_eq_nil.mp h.symm
    subst h2
    rfl
  | cons x1 r1 ih =>
    intro l2 h
    cases l2 with
    | nil => simp at h
    | cons x2 r2 =>
      simp only [List.map_cons, List.cons.injEq] at h
      simp only [List.insertionSort]
      exact orderedInsert_map_span x1 x2 h.1 _ _ (ih r2 h.2)

lemma extractCmds_congr :
    ∀ l1 l2 : List VideoClip, l1.map clipSpan = l2.map clipSpan →
      ∀ i : ℕ, extractCmds i l1 = extractCmds i l2 := by
  intro l1
  induction l1 with
  | nil =>
    intro l2 h i
    have h2 : l2 = [] := List.map_eq_nil.mp h.symm
    subst h2
    rfl
  | cons c1 r1 ih =>
    intro l2 h i
    cases l2 with
    | nil => simp at h
    | cons c2 r2 =>
      simp only [List.map_cons, List.cons.injEq] at h
      have h1 : c1.startTime = c2.startTime := congrArg Prod.fst h.1
      have h2 : c1.endTime = c2.endTime := congrArg Prod.snd h.1
      rw [extractCmds, extractCmds, h1, h2, ih r2 h.2 (i + 1)]

/-! ### Claim theorems -/

/-- C1: `createPreviewSegments` sorts a copy of the clip list ascending by
`startTime` and lays the clips end-to-end from preview time 0: an empty list
gives an empty segment list, the first segment starts at preview time 0,
every segment preserves its originating clip's duration and carries that
clip's source interval, consecutive segments are gapless
(`previewEnd = next.previewStart`), segments are ascending in source start,
and the segment durations sum to `getPreviewDuration`. -/
theorem createPreviewSegments_spec (clips : List VideoClip) :
    createPreviewSegments ([] : List VideoClip) = [] ∧
    (∀ s : Segment, (createPreviewSegments clips).head? = some s → s.startTime = 0) ∧
    (∀ s ∈ createPreviewSegments clips,
      s.endTime - s.startTime = s.originalEnd - s.originalStart) ∧
    (∀ s ∈ createPreviewSegments clips,
      ∃ c ∈ clips, s.originalStart = c.startTime ∧ s.originalEnd = c.endTime) ∧
    List.Chain' (fun a b : Segment => a.endTime = b.startTime) (createPreviewSegments clips) ∧
    List.Sorted (fun a b : Segment => a.originalStart ≤ b.originalStart)
      (createPreviewSegments clips) ∧
    ((createPreviewSegments clips).map (fun s => s.endTime - s.startTime)).sum =
      getPreviewDuration clips := by
  refine ⟨by simp [createPreviewSegments, sortClips, segmentsGo],
    fun s h => segmentsGo_head_start 0 _ s h,
    fun s hs => segmentsGo_dur _ 0 s hs,
    fun s hs => ?_,
    segmentsGo_chain _ 0,
    segs_sorted_orig clips,
    ?_⟩
  · obtain ⟨c, hc, h1, h2⟩ := segmentsGo_mem_orig _ 0 s hs
    exact ⟨c, (sortClips_perm clips).mem_iff.mp hc, h1, h2⟩
  · rw [createPreviewSegments, segmentsGo_sum, getPreviewDuration, foldl_dur, zero_add]
    exact ((sortClips_perm clips).map _).sum_eq

theorem createPreviewSegments_spec_witness :
    (createPreviewSegments [clipA, clipB]).head? =
      some { startTime := 0, endTime := 4, originalStart := 0, originalEnd := 4 } ∧
    ({ startTime := 0, endTime := 4, originalStart := 0, originalEnd := 4 } : Segment).startTime
      = 0 := by
  have h : (createPreviewSegments [clipA, clipB]).head? =
      some { startTime := 0, endTime := 4, originalStart := 0, originalEnd := 4 } := by
    norm_num [createPreviewSegments, sortClips, List.insertionSort, List.orderedInsert,
      clipLE, clipA, clipB, segmentsGo]
  exact ⟨h, (createPreviewSegments_spec [clipA, clipB]).2.1 _ h⟩

/-- C2 (amended): for a clip list whose clips all satisfy
`startTime ≤ endTime`, any source time lying *strictly* inside some clip's
interval round-trips exactly: mapping it to preview time on the first
matching segment and back through `getOriginalTime` recovers it. -/
theorem sourceRoundTrip (clips : List VideoClip)
    (hwf : ∀ c ∈ clips, c.startTime ≤ c.endTime) (t : ℚ)
    (hex : ∃ c ∈ clips, c.startTime < t ∧ t < c.endTime) :
    ∃ p, sourceToPreview? t clips = some p ∧ getOriginalTime p clips = t := by
  have hchain := segmentsGo_chain (sortClips clips) 0
  have hnn : ∀ s ∈ createPreviewSegments clips, s.originalStart ≤ s.originalEnd := by
    intro s hs
    obtain ⟨c, hc, h1, h2⟩ := segmentsGo_mem_orig _ 0 s hs
    rw [h1, h2]
    exact hwf c ((sortClips_perm clips).mem_iff.mp hc)
  have hex' : ∃ w ∈ createPreviewSegments clips,
      w.originalStart < t ∧ t < w.originalEnd := by
    obtain ⟨c, hc, h1, h2⟩ := hex
    obtain ⟨s, hs, e1, e2⟩ :=
      segmentsGo_orig_mem _ 0 c ((sortClips_perm clips).mem_iff.mpr hc)
    exact ⟨s, hs, by rw [e1]; exact h1, by rw [e2]; exact h2⟩
  obtain ⟨s₁, hfind, _, hround⟩ :=
    roundAux t (createPreviewSegments clips) hchain
      (fun s hs => segmentsGo_dur _ 0 s hs) hnn (segs_sorted_orig clips) hex'
  exact ⟨s₁.startTime + (t - s₁.originalStart),
    by rw [sourceToPreview?, hfind]; rfl, hround⟩

theorem sourceRoundTrip_witness :
    ∃ p, sourceToPreview? 7 [clipA, clipB] = some p ∧ getOriginalTime p [clipA, clipB] = 7 :=
  sourceRoundTrip [clipA, clipB]
    (by
      intro c hc
      simp only [List.mem_cons, List.not_mem_nil, or_false] at hc
      rcases hc with rfl | rfl
      · norm_num [clipA]
      · norm_num [clipB])
    7 ⟨clipB, by simp, by norm_num [clipB]⟩

/-- C2 counterexample: with clips `[0,4]` and `[6,10]`, the source time `6`
lies inside the second clip's *closed* interval, yet the round trip returns
`4`, not `6`: `sourceToPreview` lands exactly on the preview boundary `4`
shared by both segments and `getOriginalTime` resolves it to the earlier
segment. -/
theorem sourceRoundTrip_counterexample :
    (clipB.startTime ≤ 6 ∧ (6 : ℚ) ≤ clipB.endTime) ∧
    sourceToPreview? 6 [clipA, clipB] = some 4 ∧
    getOriginalTime 4 [clipA, clipB] = 4 ∧ (4 : ℚ) ≠ 6 := by
  refine ⟨⟨by norm_num [clipB], by norm_num [clipB]⟩, ?_, ?_, by norm_num⟩
  · norm_num [sourceToPreview?, createPreviewSegments, sortClips, segmentsGo, findSegAux,
      clipLE, clipA, clipB, List.insertionSort, List.orderedInsert]
  · norm_num [getOriginalTime, createPreviewSegments, sortClips, segmentsGo, findOrigAux,
      clipLE, clipA, clipB, List.insertionSort, List.orderedInsert]

/-- C6: `getOriginalTime` returns, for the first segment (in segment order)
whose closed preview interval contains `previewTime`,
`originalStart + (previewTime - previewStart)`; when no segment contains it
(empty segment list included) it returns the fallback `0`.  It is a total
function — no exception path exists. -/
theorem getOriginalTime_spec (previewTime : ℚ) (clips : List VideoClip) :
    getOriginalTime previewTime clips =
      (match (createPreviewSegments clips).find? (prevContains previewTime) with
       | some s => s.originalStart + (previewTime - s.startTime)
       | none => 0) ∧
    ((∀ s ∈ createPreviewSegments clips, ¬(prevContains previewTime s = true)) →
      getOriginalTime previewTime clips = 0) := by
  have hmain : getOriginalTime previewTime clips =
      (match (createPreviewSegments clips).find? (prevContains previewTime) with
       | some s => s.originalStart + (previewTime - s.startTime)
       | none => 0) := by
    rw [getOriginalTime]
    generalize createPreviewSegments clips = l
    induction l with
    | nil => simp [findOrigAux]
    | cons s rest ih =>
      by_cases hm : s.startTime ≤ previewTime ∧ previewTime ≤ s.endTime
      · have hb : prevContains previewTime s = true := by
          simp [prevContains, hm.1, hm.2]
        simp [findOrigAux, if_pos hm, List.find?_cons, hb]
      · have hb : prevContains previewTime s = false := by
          simp only [prevContains, Bool.and_eq_false_iff, decide_eq_false_iff_not]
          by_contra hcon
          push_neg at hcon
          exact hm hcon
        simp only [findOrigAux, if_neg hm, List.find?_cons, hb]
        exact ih
  refine ⟨hmain, fun h => ?_⟩
  rw [hmain, List.find?_eq_none.mpr h]

theorem getOriginalTime_spec_witness : getOriginalTime 99 [clipA] = 0 :=
  (getOriginalTime_spec 99 [clipA]).2 (by
    intro s hs
    simp only [createPreviewSegments, sortClips, List.insertionSort, List.orderedInsert,
      segmentsGo, clipA, List.mem_singleton] at hs
    subst hs
    norm_num [prevContains])

lemma cutList_no_match (sid newId : String) (t : ℚ) :
    ∀ l : List VideoClip, (∀ x ∈ l, x.id ≠ sid) → cutList sid t newId l = l := by
  intro l
  induction l with
  | nil => intro _; rfl
  | cons c rest ih =>
    intro h
    rw [cutList, if_neg (h c (List.mem_cons_self c rest)),
      ih fun x hx => h x (List.mem_cons_of_mem c hx)]

lemma cutList_append (sid newId : String) (t : ℚ) (c : VideoClip) (post : List VideoClip) :
    ∀ pre : List VideoClip, (∀ x ∈ pre, x.id ≠ sid) →
      cutList sid t newId (pre ++ c :: post) = pre ++ cutList sid t newId (c :: post) := by
  intro pre
  induction pre with
  | nil => intro _; rfl
  | cons x pre' ih =>
    intro h
    rw [List.cons_append, cutList, if_neg (h x (List.mem_cons_self x pre')),
      ih fun y hy => h y (List.mem_cons_of_mem x hy), List.cons_append]

/-- C3: `handleCut` at a clip id that resolves to a clip whose interval
strictly contains the playhead `t` replaces that clip (the first one with a
matching id) in place by the `[startTime, t]` half (original `position`) and
the `[t, endTime]` half (`position` shifted by the first half's duration),
the second inserted immediately after the first, all other clips and their
order untouched; the two parts' durations sum to the original duration.
When `t` is outside the clip's open interval, when the id matches no clip,
or when no clip is selected, the list is returned completely unchanged —
a silent no-op, no error path. -/
theorem handleCut_spec (clips : List VideoClip) (sid newId : String) (t : ℚ) :
    handleCut clips none t newId = clips ∧
    (∀ (pre : List VideoClip) (c : VideoClip) (post : List VideoClip),
      clips = pre ++ c :: post → (∀ x ∈ pre, x.id ≠ sid) → c.id = sid →
      ((c.startTime < t ∧ t < c.endTime →
        handleCut clips (some sid) t newId =
          pre ++ { c with endTime := t, duration := t - c.startTime } ::
            { c with id := newId, startTime := t
                     position := c.position + (t - c.startTime)
                     duration := c.endTime - t } :: post ∧
        (t - c.startTime) + (c.endTime - t) = c.endTime - c.startTime) ∧
       ((t ≤ c.startTime ∨ c.endTime ≤ t) →
        handleCut clips (some sid) t newId = clips))) ∧
    ((∀ x ∈ clips, x.id ≠ sid) → handleCut clips (some sid) t newId = clips) := by
  refine ⟨rfl, ?_, fun h => cutList_no_match sid newId t clips h⟩
  intro pre c post heq hpre hc
  constructor
  · intro hin
    constructor
    · rw [heq, handleCut, cutList_append sid newId t c post pre hpre, cutList, if_pos hc,
        if_neg (by push_neg; exact ⟨hin.1, hin.2⟩)]
    · ring
  · intro hout
    rw [heq, handleCut, cutList_append sid newId t c post pre hpre, cutList, if_pos hc,
      if_pos hout]

theorem handleCut_spec_witness :
    handleCut [clipB] (some "b") 7 "n" =
      [{ clipB with endTime := 7, duration := 1 },
       { clipB with id := "n", startTime := 7, position := 1, duration := 3 }] := by
  have h := (((handleCut_spec [clipB] "b" "n" 7).2.1 [] clipB [] rfl
    (by intro x hx; simp at hx) rfl).1 (by norm_num [clipB])).1
  rw [h]
  norm_num [clipB]

/-- C4: `handleDeleteClip` removes exactly the clips carrying the given id,
keeping every other clip in its original relative order (the result is a
sublist of the input); an id matching no clip leaves the clip list
unchanged (a no-op, not an error); the selection is cleared exactly when it
pointed at the deleted id; the playhead resets to 0; `previewMode` becomes
`false` when the resulting list is empty and `true` when clips remain. -/
theorem handleDeleteClip_spec (s : EditorState) (clipId : String) :
    (∀ c ∈ (handleDeleteClip s clipId).clips, c.id ≠ clipId ∧ c ∈ s.clips) ∧
    (∀ c ∈ s.clips, c.id ≠ clipId → c ∈ (handleDeleteClip s clipId).clips) ∧
    (handleDeleteClip s clipId).clips.Sublist s.clips ∧
    ((∀ c ∈ s.clips, c.id ≠ clipId) → (handleDeleteClip s clipId).clips = s.clips) ∧
    (s.selectedClipId = some clipId → (handleDeleteClip s clipId).selectedClipId = none) ∧
    (s.selectedClipId ≠ some clipId →
      (handleDeleteClip s clipId).selectedClipId = s.selectedClipId) ∧
    ((handleDeleteClip s clipId).clips = [] → (handleDeleteClip s clipId).previewMode = false) ∧
    ((handleDeleteClip s clipId).clips ≠ [] → (handleDeleteClip s clipId).previewMode = true) ∧
    (handleDeleteClip s clipId).currentTime = 0 := by
  refine ⟨?_, ?_, ?_, ?_, ?_, ?_, ?_, ?_, rfl⟩
  · intro c hc
    rw [handleDeleteClip] at hc
    simp only [List.mem_filter, decide_eq_true_eq] at hc
    exact ⟨hc.2, hc.1⟩
  · intro c hc hne
    rw [handleDeleteClip]
    simp only [List.mem_filter, decide_eq_true_eq]
    exact ⟨hc, hne⟩
  · exact List.filter_sublist s.clips
  · intro h
    rw [handleDeleteClip]
    simp only []
    exact List.filter_eq_self.mpr fun a ha => by simp [h a ha]
  · intro h
    simp [handleDeleteClip, h]
  · intro h
    simp [handleDeleteClip, h]
  · intro h
    rw [handleDeleteClip] at h ⊢
    simp only [] at h ⊢
    rw [if_pos (by rw [h]; rfl)]
  · intro h
    rw [handleDeleteClip] at h ⊢
    simp only [] at h ⊢
    rw [if_neg (fun hcon => h (List.isEmpty_iff.mp hcon))]

theorem handleDeleteClip_spec_witness :
    (handleDeleteClip stateAB "a").selectedClipId = none :=
  (handleDeleteClip_spec stateAB "a").2.2.2.2.1 rfl

/-- C5 (amended): `handleClipDrag` maps over the clip list without
resorting it (the i-th output comes from the i-th input) and leaves every
clip with a non-matching id untouched.  For the matching clip it does *not*
touch the `position` field: it moves the clip's **source interval**, setting
`startTime` to `newStartTime` clamped to `[0, duration - clipDuration]`
(`duration` being the full asset duration) and `endTime` so that the clip's
length is preserved whenever it was nonnegative.  The id also survives. -/
theorem handleClipDrag_spec (clips : List VideoClip) (duration : ℚ) (clipId : String)
    (newStartTime : ℚ) :
    (∀ i : ℕ, (handleClipDrag clips duration clipId newStartTime).get? i =
      (clips.get? i).map (dragOne duration clipId newStartTime)) ∧
    (∀ c : VideoClip, c.id ≠ clipId → dragOne duration clipId newStartTime c = c) ∧
    (∀ c : VideoClip, (dragOne duration clipId newStartTime c).position = c.position ∧
      (dragOne duration clipId newStartTime c).id = c.id) ∧
    (∀ c : VideoClip, c.id = clipId →
      (dragOne duration clipId newStartTime c).startTime =
        max 0 (min newStartTime (duration - (c.endTime - c.startTime)))) ∧
    (∀ c : VideoClip, 0 ≤ c.endTime - c.startTime →
      (dragOne duration clipId newStartTime c).endTime -
        (dragOne duration clipId newStartTime c).startTime = c.endTime - c.startTime) := by
  refine ⟨?_, ?_, ?_, ?_, ?_⟩
  · intro i
    rw [handleClipDrag, List.get?_map]
  · intro c h
    rw [dragOne, if_neg h]
  · intro c
    by_cases h : c.id = clipId
    · rw [dragOne, if_pos h]; exact ⟨rfl, rfl⟩
    · rw [dragOne, if_neg h]; exact ⟨rfl, rfl⟩
  · intro c h
    rw [dragOne, if_pos h]
  · intro c hd
    exact dragOne_dur duration clipId newStartTime c hd

theorem handleClipDrag_spec_witness :
    (dragOne 10 "a" 5 clipD).endTime - (dragOne 10 "a" 5 clipD).startTime =
      clipD.endTime - clipD.startTime :=
  (handleClipDrag_spec [clipD] 10 "a" 5).2.2.2.2 clipD (by norm_num [clipD])

/-- C5 counterexample: dragging clip `[1, 3]` (position 0) to 5 with asset
duration 10 yields a clip with **source interval** `[5, 7]` and `position`
still 0 — the source interval is changed and `position` is not set to the
clamped target, contradicting the claim. -/
theorem handleClipDrag_counterexample :
    ((handleClipDrag [clipD] 10 "a" 5).head?).map
      (fun c => (c.startTime, c.endTime, c.position)) = some (5, 7, 0) ∧
    (clipD.startTime, clipD.endTime, clipD.position) = (1, 3, 0) ∧
    ((5 : ℚ), (7 : ℚ)) ≠ ((1 : ℚ), (3 : ℚ)) ∧ (0 : ℚ) ≠ 5 := by
  refine ⟨?_, by norm_num [clipD], by norm_num, by norm_num⟩
  have e1 : max (0 : ℚ) (min 5 (10 - (3 - 1))) = 5 := by
    rw [min_eq_left (by norm_num), max_eq_right (by norm_num)]
  have e2 : max ((3 : ℚ) - 1) (min (5 + (3 - 1)) 10) = 7 := by
    rw [min_eq_left (by norm_num), max_eq_right (by norm_num)]
    norm_num
  simp only [handleClipDrag, List.map_cons, List.map_nil, List.head?_cons, Option.map_some,
    dragOne, clipD, if_pos]
  norm_num [e1, e2]

/-- C7 (amended): every clip-list operation preserves the invariant
`startTime < endTime` for all clips — Cut (both halves of a strict interior
cut are nonempty), Delete (a sublist), Drag (the clamp preserves the clip's
length), and Splice provided the processed span is nonempty
(`pStart < pEnd`; the before/after remainders are guarded in the code).
The initial clip created on upload only satisfies the invariant after
`handleVideoLoaded` records a positive video duration — at upload time it is
`[0, 0]` (see the counterexample). -/
theorem clipInvariant_spec (clips : List VideoClip) (sel : Option String)
    (selId clipId newId uid uname uurl bid pid aid pname : String)
    (t D new pS pE ct : ℚ) (pm : Bool)
    (hwf : ∀ c ∈ clips, c.startTime < c.endTime) :
    (∀ c ∈ handleCut clips sel t newId, c.startTime < c.endTime) ∧
    (∀ c ∈ (handleDeleteClip { clips := clips, selectedClipId := sel, previewMode := pm, currentTime := ct } clipId).clips, c.startTime < c.endTime) ∧
    (∀ c ∈ handleClipDrag clips D selId new, c.startTime < c.endTime) ∧
    (pS < pE → ∀ c ∈ spliceClips clips selId pS pE uurl bid pid aid pname,
      c.startTime < c.endTime) ∧
    (0 < D → ∀ c ∈ handleVideoLoaded D [uploadClip uid uname uurl],
      c.startTime < c.endTime) := by
  refine ⟨?_, ?_, ?_, ?_, ?_⟩
  · cases sel with
    | none => exact hwf
    | some sid => exact cutList_pos sid newId t clips hwf
  · intro c hc
    rw [handleDeleteClip] at hc
    simp only [List.mem_filter] at hc
    exact hwf c hc.1
  · intro c hc
    obtain ⟨c0, hc0, rfl⟩ := List.mem_map.mp hc
    have hdur := dragOne_dur D selId new c0 (le_of_lt (by linarith [hwf c0 hc0]))
    linarith [hwf c0 hc0]
  · intro hlt c hc
    rw [spliceClips] at hc
    split at hc
    · exact hwf c hc
    · rename_i i hfind
      split at hc
      · exact hwf c hc
      · rename_i orig hget
        simp only [List.mem_append] at hc
        rcases hc with (hc | hc) | hc
        · exact hwf c (List.take_subset i clips hc)
        · rcases hc with (hb1 | hp) | hc2
          · by_cases hb : pS > orig.startTime
            · rw [if_pos hb] at hb1
              obtain rfl := List.mem_singleton.mp hb1
              simpa using hb
            · rw [if_neg hb] at hb1
              exact absurd hb1 (List.not_mem_nil c)
          · obtain rfl := List.mem_singleton.mp hp
            simpa using hlt
          · by_cases ha : pE < orig.endTime
            · rw [if_pos ha] at hc2
              obtain rfl := List.mem_singleton.mp hc2
              simpa using ha
            · rw [if_neg ha] at hc2
              exact absurd hc2 (List.not_mem_nil c)
        · exact hwf c (List.drop_subset (i + 1) clips hc)
  · intro hD c hc
    simp only [handleVideoLoaded, uploadClip, List.map_cons, List.map_nil, List.mem_cons,
      List.not_mem_nil, or_false] at hc
    subst hc
    exact hD

theorem clipInvariant_spec_witness :
    ({ id := "1", name := "n", url := "u", duration := 10, startTime := 0, endTime := 10, position := 0 } : VideoClip).startTime <
      ({ id := "1", name := "n", url := "u", duration := 10, startTime := 0, endTime := 10, position := 0 } : VideoClip).endTime :=
  (clipInvariant_spec [] none "x" "x" "x" "1" "n" "u" "b" "p" "a" "pn" 0 10 0 0 1 0 false
    (by intro c hc; simp at hc)).2.2.2.2 (by norm_num)
    { id := "1", name := "n", url := "u", duration := 10, startTime := 0, endTime := 10, position := 0 }
    (by simp [handleVideoLoaded, uploadClip])

/-- C7 counterexample: the initial clip created by `handleFileUpload` has
`startTime = endTime = 0`, so the invariant `startTime < endTime` fails for
a reachable clip (before the video metadata loads). -/
theorem clipInvariant_counterexample :
    uploadClip "1" "v" "u" ∈ [uploadClip "1" "v" "u"] ∧
    ¬((uploadClip "1" "v" "u").startTime < (uploadClip "1" "v" "u").endTime) :=
  ⟨List.mem_singleton_self _, by norm_num [uploadClip]⟩

/-- C8: the export path and the preview path agree on segment ordering: the
source intervals `trimVideo` extracts and concatenates (its sorted-clip
order) are exactly the `(originalStart, originalEnd)` pairs of the segments
`createPreviewSegments` builds for the same clip list — both equal the
sorted clip list's span sequence. -/
theorem exportPreviewAgree (clips : List VideoClip) :
    (createPreviewSegments clips).map (fun s => (s.originalStart, s.originalEnd)) =
      (sortClips clips).map clipSpan ∧
    extractPairs (trimVideoScript clips) = (sortClips clips).map clipSpan ∧
    (createPreviewSegments clips).map (fun s => (s.originalStart, s.originalEnd)) =
      extractPairs (trimVideoScript clips) := by
  have h1 : (createPreviewSegments clips).map (fun s => (s.originalStart, s.originalEnd)) =
      (sortClips clips).map clipSpan := segmentsGo_map_pairs (sortClips clips) 0
  have h2 : extractPairs (trimVideoScript clips) = (sortClips clips).map clipSpan := by
    rw [trimVideoScript, extractPairs, List.filterMap_cons, List.filterMap_append]
    simp only [List.filterMap_cons, List.filterMap_nil, List.append_nil]
    exact extractPairs_extractCmds (sortClips clips) 0
  exact ⟨h1, h2, by rw [h1, h2]⟩

/-- C9: when preview-mode playback reaches the end of the media element with
at least one clip present, `handleVideoEnded` sorts the shared clips array
in place (`Array.prototype.sort` on the `clips` prop, no copy): the stored
clip list becomes exactly `sortClips clips` — a permutation of the former
list, now ascending by `startTime` — as a side effect of a playback event.
Outside preview mode the list is untouched. -/
theorem handleVideoEnded_spec (clips : List VideoClip) (h : clips ≠ []) :
    handleVideoEnded true clips = sortClips clips ∧
    List.Sorted clipLE (handleVideoEnded true clips) ∧
    (handleVideoEnded true clips).Perm clips ∧
    handleVideoEnded false clips = clips := by
  have hcond : (true = true) ∧ clips.length > 0 := ⟨rfl, List.length_pos.mpr h⟩
  have heq : handleVideoEnded true clips = sortClips clips := by
    rw [handleVideoEnded, if_pos hcond]
  refine ⟨heq, ?_, ?_, ?_⟩
  · rw [heq]; exact sortClips_sorted clips
  · rw [heq]; exact sortClips_perm clips
  · rw [handleVideoEnded, if_neg (fun hcon => Bool.false_ne_true hcon.1)]

theorem handleVideoEnded_spec_witness :
    handleVideoEnded true [clipB, clipA] = sortClips [clipB, clipA] :=
  (handleVideoEnded_spec [clipB, clipA] (by simp)).1

/-- C10 (amended): the command script `trimVideo` issues depends only on the
sequence of `(startTime, endTime)` spans of the sorted clip list: two clip
lists whose sorted span sequences coincide produce the identical script; in
particular two lists that agree pointwise on spans — differing arbitrarily
in `url`, `name`, `id` or `position`, such as the replacement clips spliced
in by `handleVideoProcessed` — produce the identical script, which reads
only `input.mp4` (written from the uploaded source file) and never a clip's
own `url`.  Multiset agreement of spans alone is *not* sufficient when two
clips share a `startTime` (see the counterexample). -/
theorem trimVideoDeterminism (A B : List VideoClip) :
    ((sortClips A).map clipSpan = (sortClips B).map clipSpan →
      trimVideoScript A = trimVideoScript B) ∧
    (A.map clipSpan = B.map clipSpan → trimVideoScript A = trimVideoScript B) := by
  have base : (sortClips A).map clipSpan = (sortClips B).map clipSpan →
      trimVideoScript A = trimVideoScript B := by
    intro h
    have hlen : (sortClips A).length = (sortClips B).length := by
      have := congrArg List.length h
      simpa using this
    rw [trimVideoScript, trimVideoScript, extractCmds_congr _ _ h 0, hlen]
  exact ⟨base, fun h => base (insertionSort_map_span A B h)⟩

theorem trimVideoDeterminism_witness :
    trimVideoScript [clipXalt] = trimVideoScript [clipX] :=
  (trimVideoDeterminism [clipXalt] [clipX]).2
    (by norm_num [clipX, clipXalt, clipSpan])

/-- C10 counterexample: `[clipX, clipY]` and `[clipY, clipX]` agree on the
multiset of spans `{(0,5), (0,3)}` and on every other field, yet the stable
sort preserves their different tie orders, so `trimVideo` issues different
extraction sequences — multiset agreement does not give identical commands. -/
theorem trimVideoDeterminism_counterexample :
    (Multiset.ofList ([clipX, clipY].map clipSpan)) =
      (Multiset.ofList ([clipY, clipX].map clipSpan)) ∧
    trimVideoScript [clipX, clipY] ≠ trimVideoScript [clipY, clipX] := by
  constructor
  · simp [clipX, clipY, clipSpan]
    exact List.Perm.swap _ _ _
  · norm_num [trimVideoScript, sortClips, extractCmds, clipLE, clipX, clipY,
      List.insertionSort, List.orderedInsert]

end DarkFrame
